import Mathlib

/-!
Shallow embedding of the `pinus` crate's storage engines (`src/sync.rs`,
`src/prelude.rs`).

The crate stores, per map, a `Cambium` behind an `RwLock`:
  * `addresses : BTreeMap<K, *mut V>` — the key index, mapping each key to the
    raw address of its value;
  * `memory : Bump` — a bump allocator that hands out fresh, never-moving
    slots;
  * `holes : Vec<*mut MaybeUninit<V>>` — a stack of reclaimed slot addresses
    (homogeneous `PineMap` only; `PressedCambium` has no hole list).

The embedding models raw addresses as `Nat`, the bump allocator as a counter
`nextAddr` (each allocation returns `nextAddr` and increments it; bumpalo
never reuses or moves an address until `reset`), the heap contents as an
association list `store : List (Nat × V)` from addresses to initialized
values, and the key index as an association list `addresses : List (K × Nat)`
with unique keys (the `BTreeMap`).  Locks disappear in the sequential
embedding: the shared-handle methods (`try_emplace_with`) and the
exclusive-handle methods (`try_emplace_with_mut`) are transcribed separately
from their two Rust bodies, which differ only in lock acquisition.

Value factories `FnOnce(&K, &mut MaybeUninit<V>) -> Result<&mut V, E>` are
modelled as `K → Nat → Except E V`: the factory sees the key and the reserved
slot address and either produces the value written into that slot (the
returned reference then points at the slot, as in all the crate's derived
`insert` methods, which use `slot.write(..)`) or fails with `E`.  Panicking
destructors are modelled by functions `K → Option P` / `Nat → Option P`
giving the panic payload a key or value destructor raises, if any.
-/

/-- Association-list lookup: the value of the first entry with the given key,
mirroring a map lookup (`BTreeMap::get`). -/
def lookupA {α β : Type} [DecidableEq α] : List (α × β) → α → Option β
  | [], _ => none
  | e :: t, a => if e.1 = a then some e.2 else lookupA t a

/-- Association-list removal of the first entry with the given key
(`BTreeMap::remove_entry`; under the no-duplicate-keys invariant this is the
unique entry). -/
def eraseA {α β : Type} [DecidableEq α] : List (α × β) → α → List (α × β)
  | [], _ => []
  | e :: t, a => if e.1 = a then t else e :: eraseA t a

/-- Association-list write: binds the key to the value, dropping any previous
binding (`BTreeMap::insert`, and a heap write at an address). -/
def setA {α β : Type} [DecidableEq α] (l : List (α × β)) (a : α) (b : β) :
    List (α × β) :=
  (a, b) :: eraseA l a

/-- Association-list key membership (`BTreeMap::contains_key`). -/
def containsA {α β : Type} [DecidableEq α] (l : List (α × β)) (a : α) : Bool :=
  (lookupA l a).isSome

deriving instance DecidableEq for Except

/-- State of a `PineMap<K, V>` (the `Cambium` struct in `src/sync.rs`):
key index, heap contents, bump-allocator frontier, and the hole stack. -/
structure Cambium (K V : Type) where
  addresses : List (K × Nat)
  store : List (Nat × V)
  nextAddr : Nat
  holes : List Nat
deriving DecidableEq

/-- State of a `PressedPineMap<K, V>` (the `PressedCambium` struct):
as `Cambium`, but with no hole list — removed slots are never reclaimed. -/
structure PressedCambium (K V : Type) where
  addresses : List (K × Nat)
  store : List (Nat × V)
  nextAddr : Nat
deriving DecidableEq

/-- Result of one emplace/insert attempt, flattening the crate's
`Result<Result<&V, (K, F)>, E>`: `success` carries the address the returned
reference points at, `occupied` carries the key handed back to the caller
(together with the untouched factory), `factoryError` the outer error. -/
inductive EmplaceResult (K E : Type) where
  | success (addr : Nat)
  | occupied (key : K)
  | factoryError (e : E)
deriving DecidableEq

/-- Outcome of bulk teardown: no panic, a single panic resumed as-is, or a
compound panic carrying every collected payload. -/
inductive TeardownOutcome (P : Type) where
  | normal
  | single (p : P)
  | compound (ps : List P)
deriving DecidableEq

/-- Loop body of `drop_all_pinned` (src/sync.rs:644-658): every entry is
visited in order; each key drop and each value drop is wrapped in
`catch_unwind` and a raised panic is appended to the accumulator, after which
the loop continues with the remaining entries. -/
def drop_all_pinned_loop {K P : Type} (kp : K → Option P) (vp : Nat → Option P) :
    List (K × Nat) → List P → List P
  | [], panics => panics
  | e :: rest, panics =>
    drop_all_pinned_loop kp vp rest (panics ++ (kp e.1).toList ++ (vp e.2).toList)

/-- Transcription of `drop_all_pinned` (src/sync.rs:644-658): run the
catch-per-entry loop, then `match panics.len()`: zero panics return normally,
one is resumed as-is, more are resumed boxed together. -/
def drop_all_pinned {K P : Type} (kp : K → Option P) (vp : Nat → Option P)
    (addresses : List (K × Nat)) : TeardownOutcome P :=
  match drop_all_pinned_loop kp vp addresses [] with
  | [] => TeardownOutcome.normal
  | [p] => TeardownOutcome.single p
  | p :: q :: rest => TeardownOutcome.compound (p :: q :: rest)

/-- Panic payloads raised by destroying every listed entry, in entry order:
the reference list `drop_all_pinned`'s accumulator loop is proved equal to. -/
def collected_panics {K P : Type} (kp : K → Option P) (vp : Nat → Option P) :
    List (K × Nat) → List P
  | [] => []
  | e :: rest => (kp e.1).toList ++ (vp e.2).toList ++ collected_panics kp vp rest

/-- Key-destructor panic payloads of the listed entries, in order: the panics
that `addresses.clear()` raises on the no-drop-glue branch of
`PineMap::clear`, where only the keys have destructors to run. -/
def key_panics {K P : Type} (kp : K → Option P) : List (K × Nat) → List P
  | [] => []
  | e :: rest => (kp e.1).toList ++ key_panics kp rest

/-- What one `clear` call does as observed by its caller: return normally,
unwind with a single panic payload (whether resumed by the aggregation
machinery or escaped uncaught), unwind with the compound panic carrying the
collected payload list, or abort the process (a destructor panic raised
while already unwinding from an uncaught destructor panic). -/
inductive ClearResult (P : Type) where
  | returned
  | panicked (p : P)
  | compound (ps : List P)
  | aborted
deriving DecidableEq

namespace PineMap

variable {K V E P : Type} [DecidableEq K]

/-- Transcription of `PineMap::new` (src/sync.rs:184-192): empty index, fresh
bump allocator, empty hole list. -/
def new (K V : Type) : Cambium K V :=
  { addresses := [], store := [], nextAddr := 0, holes := [] }

/-- Transcription of `UnpinnedPineMap::get` for `PineMap` (src/sync.rs:246-253):
look the key up in the index and dereference the stored pointer. -/
def get (c : Cambium K V) (key : K) : Option V :=
  (lookupA c.addresses key).bind fun a => lookupA c.store a

/-- Transcription of `PineMap::try_emplace_with` (src/sync.rs:455-484), the
shared-handle primitive: under the write lock, if the key is present return
it (and the factory) untouched; otherwise pop a hole if one exists, run the
factory on that slot (pushing the hole back on factory error), else allocate
a fresh slot from the bump allocator and run the factory there (the fresh
slot is not reclaimed on factory error); on success record the returned
address in the index. -/
def try_emplace_with (c : Cambium K V) (key : K)
    (value_factory : K → Nat → Except E V) : EmplaceResult K E × Cambium K V :=
  if containsA c.addresses key then
    (EmplaceResult.occupied key, c)
  else
    match c.holes with
    | hole :: rest =>
      match value_factory key hole with
      | Except.ok v =>
        (EmplaceResult.success hole,
          { c with
            addresses := setA c.addresses key hole
            store := setA c.store hole v
            holes := rest })
      | Except.error e =>
        (EmplaceResult.factoryError e, { c with holes := hole :: rest })
    | [] =>
      match value_factory key c.nextAddr with
      | Except.ok v =>
        (EmplaceResult.success c.nextAddr,
          { c with
            addresses := setA c.addresses key c.nextAddr
            store := setA c.store c.nextAddr v
            nextAddr := c.nextAddr + 1 })
      | Except.error e =>
        (EmplaceResult.factoryError e, { c with nextAddr := c.nextAddr + 1 })

/-- Transcription of `PineMap::try_emplace_with_mut` (src/sync.rs:486-514),
the exclusive-handle primitive: the same body as `try_emplace_with` with the
lock acquisition (`contents.write()` vs `contents.get_mut()`) elided. -/
def try_emplace_with_mut (c : Cambium K V) (key : K)
    (value_factory : K → Nat → Except E V) : EmplaceResult K E × Cambium K V :=
  if containsA c.addresses key then
    (EmplaceResult.occupied key, c)
  else
    match c.holes with
    | hole :: rest =>
      match value_factory key hole with
      | Except.ok v =>
        (EmplaceResult.success hole,
          { c with
            addresses := setA c.addresses key hole
            store := setA c.store hole v
            holes := rest })
      | Except.error e =>
        (EmplaceResult.factoryError e, { c with holes := hole :: rest })
    | [] =>
      match value_factory key c.nextAddr with
      | Except.ok v =>
        (EmplaceResult.success c.nextAddr,
          { c with
            addresses := setA c.addresses key c.nextAddr
            store := setA c.store c.nextAddr v
            nextAddr := c.nextAddr + 1 })
      | Except.error e =>
        (EmplaceResult.factoryError e, { c with nextAddr := c.nextAddr + 1 })

/-- Transcription of `PineMap::try_insert_with` (src/sync.rs:255-266): calls
`try_emplace_with` with the factory `|key, slot| slot.write(value_factory(key)?)`,
so the value produced by the plain factory is written into the reserved slot. -/
def try_insert_with (c : Cambium K V) (key : K) (value_factory : K → Except E V) :
    EmplaceResult K E × Cambium K V :=
  try_emplace_with c key fun k _slot => value_factory k

/-- Transcription of `PineMap::try_insert_with_mut` (src/sync.rs:310-321):
as `try_insert_with`, delegating to the exclusive-handle primitive. -/
def try_insert_with_mut (c : Cambium K V) (key : K)
    (value_factory : K → Except E V) : EmplaceResult K E × Cambium K V :=
  try_emplace_with_mut c key fun k _slot => value_factory k

/-- Transcription of `UnpinnedPineMap::insert` (src/prelude.rs:84-91), which
goes through `insert_with` and `try_insert_with` with an infallible factory
returning the given value. -/
def insert (c : Cambium K V) (key : K) (v : V) :
    EmplaceResult K Empty × Cambium K V :=
  try_insert_with c key fun _ => Except.ok v

/-- Transcription of `PineMap::remove_pair` (src/sync.rs:323-332): remove the
entry from the index, push the freed slot onto the hole stack, then read the
value out of the slot (the inner `Option V` is the bytes read; it is `some`
whenever the slot is initialized, which the map's invariant guarantees). -/
def remove_pair (c : Cambium K V) (key : K) :
    Option (K × Option V) × Cambium K V :=
  match lookupA c.addresses key with
  | none => (none, c)
  | some a =>
    (some (key, lookupA c.store a),
      { c with
        addresses := eraseA c.addresses key
        store := eraseA c.store a
        holes := a :: c.holes })

/-- Transcription of `PineMap::remove_key` (src/sync.rs:334-344): remove the
entry from the index, push the freed slot onto the hole stack, and only then
drop the value in place.  `vp` gives the panic payload the value's destructor
raises, if any: a raised panic (`Except.error`) unwinds to the caller, but
the index and hole mutations have already happened. -/
def remove_key (c : Cambium K V) (key : K) (vp : Nat → Option P) :
    Except P (Option K) × Cambium K V :=
  match lookupA c.addresses key with
  | none => (Except.ok none, c)
  | some a =>
    ((match vp a with
      | some p => Except.error p
      | none => Except.ok (some key)),
      { c with
        addresses := eraseA c.addresses key
        store := eraseA c.store a
        holes := a :: c.holes })

/-- Transcription of `PineMap::clear` (src/sync.rs:279-296), both branches.
`needsDrop` stands for the compile-time `mem::needs_drop::<V>()`; when it is
false, `V` has no drop glue, so no value destructor runs at all and values
raise no panics (`vp` is irrelevant on that branch).  The hole list is
cleared first in either case.  On the needs-drop branch, `drop_all_pinned`
destroys every key and value with a per-entry `catch_unwind`, its aggregated
panic is caught, the bump allocator is reset, and the panic is then resumed.
On the other branch (src/sync.rs:288-290) `contents.addresses.clear()` drops
the keys with no `catch_unwind` anywhere: the first key-destructor panic
unwinds straight out of `clear` before `memory.reset()` runs, and a second
key-destructor panic raised while the map's remaining entries are cleaned up
during that unwind is a panic amid a panic, which aborts the process — no
aggregation happens on this branch.  The post-state of the panicking no-drop
branch is not further specified by the source (the container must not be
reused after an uncaught destructor panic); the embedding records the index
emptied and the arena unreset, and no theorem relies on that state. -/
def clear (c : Cambium K V) (needsDrop : Bool) (kp : K → Option P)
    (vp : Nat → Option P) : Cambium K V × ClearResult P :=
  if needsDrop then
    ({ addresses := [], store := [], nextAddr := 0, holes := [] },
      match drop_all_pinned kp vp c.addresses with
      | TeardownOutcome.normal => ClearResult.returned
      | TeardownOutcome.single p => ClearResult.panicked p
      | TeardownOutcome.compound ps => ClearResult.compound ps)
  else
    match key_panics kp c.addresses with
    | [] =>
      ({ addresses := [], store := [], nextAddr := 0, holes := [] },
        ClearResult.returned)
    | [p] =>
      ({ addresses := [], store := c.store, nextAddr := c.nextAddr, holes := [] },
        ClearResult.panicked p)
    | _ :: _ :: _ =>
      ({ addresses := [], store := c.store, nextAddr := c.nextAddr, holes := [] },
        ClearResult.aborted)

end PineMap

namespace PressedPineMap

variable {K V E P : Type} [DecidableEq K]

/-- Transcription of `PressedPineMap::new` (src/sync.rs:211-218). -/
def new (K V : Type) : PressedCambium K V :=
  { addresses := [], store := [], nextAddr := 0 }

/-- Transcription of `UnpinnedPineMap::get` for `PressedPineMap`
(src/sync.rs:348-355). -/
def get (c : PressedCambium K V) (key : K) : Option V :=
  (lookupA c.addresses key).bind fun a => lookupA c.store a

/-- Transcription of `PressedPineMap::try_emplace_with` (src/sync.rs:518-537):
as for `PineMap` but with no hole list — every new entry gets a fresh bump
allocation, and a factory failure leaves the fresh allocation unreclaimed. -/
def try_emplace_with (c : PressedCambium K V) (key : K)
    (value_factory : K → Nat → Except E V) :
    EmplaceResult K E × PressedCambium K V :=
  if containsA c.addresses key then
    (EmplaceResult.occupied key, c)
  else
    match value_factory key c.nextAddr with
    | Except.ok v =>
      (EmplaceResult.success c.nextAddr,
        { c with
          addresses := setA c.addresses key c.nextAddr
          store := setA c.store c.nextAddr v
          nextAddr := c.nextAddr + 1 })
    | Except.error e =>
      (EmplaceResult.factoryError e, { c with nextAddr := c.nextAddr + 1 })

/-- Transcription of `PressedPineMap::try_emplace_with_mut`
(src/sync.rs:539-557): the same body with the lock acquisition elided. -/
def try_emplace_with_mut (c : PressedCambium K V) (key : K)
    (value_factory : K → Nat → Except E V) :
    EmplaceResult K E × PressedCambium K V :=
  if containsA c.addresses key then
    (EmplaceResult.occupied key, c)
  else
    match value_factory key c.nextAddr with
    | Except.ok v =>
      (EmplaceResult.success c.nextAddr,
        { c with
          addresses := setA c.addresses key c.nextAddr
          store := setA c.store c.nextAddr v
          nextAddr := c.nextAddr + 1 })
    | Except.error e =>
      (EmplaceResult.factoryError e, { c with nextAddr := c.nextAddr + 1 })

/-- Transcription of `PressedPineMap::remove_pair` (src/sync.rs:424-433):
remove the entry from the index and read the value out; the arena space is
not reclaimed (there is no hole list to push onto). -/
def remove_pair (c : PressedCambium K V) (key : K) :
    Option (K × Option V) × PressedCambium K V :=
  match lookupA c.addresses key with
  | none => (none, c)
  | some a =>
    (some (key, lookupA c.store a),
      { c with
        addresses := eraseA c.addresses key
        store := eraseA c.store a })

/-- Transcription of `PressedPineMap::remove_key` (src/sync.rs:435-444):
remove the entry from the index, then drop the value in place; the arena
space is not reclaimed. -/
def remove_key (c : PressedCambium K V) (key : K) (vp : Nat → Option P) :
    Except P (Option K) × PressedCambium K V :=
  match lookupA c.addresses key with
  | none => (Except.ok none, c)
  | some a =>
    ((match vp a with
      | some p => Except.error p
      | none => Except.ok (some key)),
      { c with
        addresses := eraseA c.addresses key
        store := eraseA c.store a })

/-- Transcription of `PressedPineMap::clear` (src/sync.rs:384-394): run
`drop_all_pinned` on the index taken out of the map, reset the whole arena in
one step, then resume the aggregated panic if there was one. -/
def clear (c : PressedCambium K V) (kp : K → Option P) (vp : Nat → Option P) :
    PressedCambium K V × TeardownOutcome P :=
  ({ addresses := [], store := [], nextAddr := 0 },
    drop_all_pinned kp vp c.addresses)

end PressedPineMap

/-- Well-formedness of every reachable `PineMap` state: index keys are
unique, no two keys share a slot, every live slot and every hole lies below
the bump frontier, and no live slot is simultaneously a hole. -/
abbrev CambiumWF {K V : Type} (c : Cambium K V) : Prop :=
  (c.addresses.map Prod.fst).Nodup ∧
  (c.addresses.map Prod.snd).Nodup ∧
  (∀ a ∈ c.addresses.map Prod.snd, a < c.nextAddr) ∧
  (∀ a ∈ c.holes, a < c.nextAddr) ∧
  (∀ a ∈ c.holes, a ∉ c.addresses.map Prod.snd)

/-- Well-formedness of every reachable `PressedPineMap` state. -/
abbrev PressedWF {K V : Type} (c : PressedCambium K V) : Prop :=
  (c.addresses.map Prod.fst).Nodup ∧
  (c.addresses.map Prod.snd).Nodup ∧
  (∀ a ∈ c.addresses.map Prod.snd, a < c.nextAddr)

/-- One exclusive-access operation on a `PressedPineMap`, for reasoning about
arbitrary operation sequences after a removal. -/
inductive POp (K V E : Type) where
  | emplace (key : K) (value_factory : K → Nat → Except E V)
  | removeKey (key : K)
  | removePair (key : K)

/-- State reached by one `POp` (the destructor behavior does not affect the
resulting state, so `remove_key` is run with non-panicking destructors). -/
def applyPOp {K V E : Type} [DecidableEq K] (c : PressedCambium K V) :
    POp K V E → PressedCambium K V
  | POp.emplace k f => (PressedPineMap.try_emplace_with c k f).2
  | POp.removeKey k => (PressedPineMap.remove_key (P := Empty) c k fun _ => none).2
  | POp.removePair k => (PressedPineMap.remove_pair c k).2

/-- State reached by a sequence of operations on a `PressedPineMap`. -/
def runPOps {K V E : Type} [DecidableEq K] (c : PressedCambium K V) :
    List (POp K V E) → PressedCambium K V
  | [] => c
  | op :: rest => runPOps (applyPOp c op) rest

/-- Invariant carried through arbitrary operation sequences on a
`PressedPineMap`: the address `a` stays strictly below the bump frontier and
no live entry occupies it. -/
def PAddrFree (a : Nat) {K V : Type} (q : PressedCambium K V) : Prop :=
  a < q.nextAddr ∧ ∀ e ∈ q.addresses, e.2 ≠ a

/-- First state of the spec's concrete scenario: key 1 inserted with value 2
on a fresh `PineMap` (the `complicated` test, src/tests/tests.rs:26-72). -/
def scenario1 : Cambium Nat Nat := (PineMap.insert (PineMap.new Nat Nat) 1 2).2

/-- Second state of the concrete scenario: key 2 inserted with value 3. -/
def scenario2 : Cambium Nat Nat := (PineMap.insert scenario1 2 3).2

/-- Third state of the concrete scenario: key 3 inserted with value 4. -/
def scenario3 : Cambium Nat Nat := (PineMap.insert scenario2 3 4).2

/-- Fourth state of the concrete scenario: key 2 removed again. -/
def scenario4 : Cambium Nat Nat :=
  (PineMap.remove_key (P := Empty) scenario3 2 fun _ => none).2

/-- Concrete two-entry homogeneous map used to instantiate the general
theorems: keys 1 and 2 live at addresses 0 and 1, frontier 2, no holes. -/
def wit_map : Cambium Nat Nat :=
  { addresses := [(1, 0), (2, 1)], store := [(0, 10), (1, 11)],
    nextAddr := 2, holes := [] }

/-- Concrete homogeneous map with one live entry and one hole: key 1 lives at
address 0, address 1 was freed by a removal, frontier 2. -/
def wit_hole_map : Cambium Nat Nat :=
  { addresses := [(1, 0)], store := [(0, 10)], nextAddr := 2, holes := [1] }

/-- Concrete two-entry heterogeneous map mirroring `wit_map`. -/
def wit_pressed : PressedCambium Nat Nat :=
  { addresses := [(1, 0), (2, 1)], store := [(0, 10), (1, 11)], nextAddr := 2 }

/-- Concrete map whose value type `Unit` has no drop glue, holding two
entries (keys 1 and 2) — the shape on which `clear` takes the
`addresses.clear()` branch while both key destructors can still panic. -/
def bad_keys_map : Cambium Nat Unit :=
  { addresses := [(1, 0), (2, 1)], store := [(0, ()), (1, ())],
    nextAddr := 2, holes := [] }

section AssocLemmas

variable {α β : Type} [DecidableEq α]

/-- Looking a key up finds an actual entry of the list. -/
theorem lookupA_mem {l : List (α × β)} {a : α} {b : β}
    (h : lookupA l a = some b) : (a, b) ∈ l := by
  induction l with
  | nil => simp [lookupA] at h
  | cons e t ih =>
    by_cases he : e.1 = a
    · rw [lookupA, if_pos he] at h
      have h2 : e.2 = b := Option.some.inj h
      rw [← he, ← h2]
      exact List.mem_cons_self e t
    · rw [lookupA, if_neg he] at h
      exact List.mem_cons_of_mem e (ih h)

/-- A key absent from the key column looks up to nothing. -/
theorem lookupA_eq_none {l : List (α × β)} {a : α}
    (h : a ∉ l.map Prod.fst) : lookupA l a = none := by
  induction l with
  | nil => rfl
  | cons e t ih =>
    rw [List.map_cons, List.mem_cons] at h
    push_neg at h
    rw [lookupA, if_neg fun he => h.1 he.symm]
    exact ih h.2

/-- A looked-up address is in the address column. -/
theorem lookupA_mem_snd {l : List (α × β)} {a : α} {b : β}
    (h : lookupA l a = some b) : b ∈ l.map Prod.snd :=
  List.mem_map_of_mem Prod.snd (lookupA_mem h)

/-- Erasing one key leaves lookups of other keys unchanged. -/
theorem lookupA_eraseA_ne (l : List (α × β)) {a a' : α} (h : a ≠ a') :
    lookupA (eraseA l a) a' = lookupA l a' := by
  induction l with
  | nil => rfl
  | cons e t ih =>
    rw [eraseA]
    by_cases he : e.1 = a
    · rw [if_pos he, lookupA, if_neg fun he' => h (he.symm.trans he')]
    · rw [if_neg he, lookupA, lookupA, ih]

/-- Writing one key leaves lookups of other keys unchanged. -/
theorem lookupA_setA_ne (l : List (α × β)) {a a' : α} (b : β) (h : a ≠ a') :
    lookupA (setA l a b) a' = lookupA l a' := by
  rw [setA, lookupA, if_neg fun he : a = a' => h he]
  exact lookupA_eraseA_ne l h

/-- Writing a key makes it look up to the written value. -/
theorem lookupA_setA_self (l : List (α × β)) (a : α) (b : β) :
    lookupA (setA l a b) a = some b := by
  rw [setA, lookupA, if_pos rfl]

/-- Erasure only removes entries. -/
theorem mem_of_mem_eraseA {l : List (α × β)} {a : α} {x : α × β}
    (h : x ∈ eraseA l a) : x ∈ l := by
  induction l with
  | nil => exact absurd h (List.not_mem_nil x)
  | cons e t ih =>
    rw [eraseA] at h
    by_cases he : e.1 = a
    · rw [if_pos he] at h
      exact List.mem_cons_of_mem e h
    · rw [if_neg he] at h
      rcases List.mem_cons.mp h with h | h
      · exact h ▸ List.mem_cons_self e t
      · exact List.mem_cons_of_mem e (ih h)

/-- With unique keys, no surviving entry of an erasure bears the erased key. -/
theorem fst_ne_of_mem_eraseA {l : List (α × β)} {a : α} {x : α × β}
    (hn : (l.map Prod.fst).Nodup) (h : x ∈ eraseA l a) : x.1 ≠ a := by
  induction l with
  | nil => exact absurd h (List.not_mem_nil x)
  | cons e t ih =>
    rw [List.map_cons, List.nodup_cons] at hn
    rw [eraseA] at h
    by_cases he : e.1 = a
    · rw [if_pos he] at h
      intro hx
      have hm : x.1 ∈ t.map Prod.fst := List.mem_map_of_mem Prod.fst h
      rw [hx, ← he] at hm
      exact hn.1 hm
    · rw [if_neg he] at h
      rcases List.mem_cons.mp h with h | h
      · exact h ▸ he
      · exact ih hn.2 h

/-- With unique keys, the erased key no longer looks up to anything. -/
theorem lookupA_eraseA_self {l : List (α × β)} {a : α}
    (hn : (l.map Prod.fst).Nodup) : lookupA (eraseA l a) a = none := by
  cases hl : lookupA (eraseA l a) a with
  | none => rfl
  | some b => exact absurd rfl (fst_ne_of_mem_eraseA hn (lookupA_mem hl))

/-- An absent key (in the sense of `containsA`) looks up to nothing. -/
theorem lookupA_eq_none_of_not_containsA {l : List (α × β)} {a : α}
    (h : containsA l a = false) : lookupA l a = none := by
  rw [containsA] at h
  exact Option.not_isSome_iff_eq_none.mp (by rw [h]; exact Bool.false_ne_true)

/-- Entries with distinct keys have distinct addresses when the address
column has no duplicates. -/
theorem snd_ne_of_lookupA_ne {l : List (α × β)} {a1 a2 : α} {b1 b2 : β}
    (hn : (l.map Prod.snd).Nodup) (h1 : lookupA l a1 = some b1)
    (h2 : lookupA l a2 = some b2) (hne : a1 ≠ a2) : b1 ≠ b2 := by
  intro hb
  have := List.inj_on_of_nodup_map hn (lookupA_mem h1) (lookupA_mem h2) (by simpa using hb)
  exact hne (congrArg Prod.fst this)

end AssocLemmas

section TeardownLemmas

variable {K P : Type}

/-- The accumulator loop of `drop_all_pinned` collects the panic payloads of
every entry, in order, regardless of how many earlier destructors panicked. -/
theorem drop_all_pinned_loop_eq (kp : K → Option P) (vp : Nat → Option P)
    (entries : List (K × Nat)) (acc : List P) :
    drop_all_pinned_loop kp vp entries acc = acc ++ collected_panics kp vp entries := by
  induction entries generalizing acc with
  | nil => simp [drop_all_pinned_loop, collected_panics]
  | cons e t ih =>
    rw [drop_all_pinned_loop, collected_panics, ih]
    simp [List.append_assoc]

/-- Aggregation behavior of `drop_all_pinned`: no collected panic returns
normally, exactly one is resumed as-is, two or more are resumed together. -/
theorem drop_all_pinned_spec (kp : K → Option P) (vp : Nat → Option P)
    (entries : List (K × Nat)) :
    (collected_panics kp vp entries = [] →
      drop_all_pinned kp vp entries = TeardownOutcome.normal) ∧
    (∀ q, collected_panics kp vp entries = [q] →
      drop_all_pinned kp vp entries = TeardownOutcome.single q) ∧
    (∀ ps, collected_panics kp vp entries = ps → 2 ≤ ps.length →
      drop_all_pinned kp vp entries = TeardownOutcome.compound ps) := by
  refine ⟨fun h => ?_, fun q h => ?_, fun ps h hlen => ?_⟩
  · rw [drop_all_pinned, drop_all_pinned_loop_eq, List.nil_append, h]
  · rw [drop_all_pinned, drop_all_pinned_loop_eq, List.nil_append, h]
  · subst h
    match hps : collected_panics kp vp entries, hlen with
    | p :: q :: rest, _ =>
      rw [drop_all_pinned, drop_all_pinned_loop_eq, List.nil_append, hps]

end TeardownLemmas

section FrameLemmas

variable {K V E P : Type} [DecidableEq K]

/-- Frame property of the homogeneous emplace: any attempt concerning a
different key leaves a live entry's index pointer and stored value untouched. -/
theorem pine_emplace_frame {c : Cambium K V} {k1 : K} {a1 : Nat} (k2 : K)
    (f : K → Nat → Except E V) (hne : k1 ≠ k2) (hwf : CambiumWF c)
    (h1 : lookupA c.addresses k1 = some a1) :
    lookupA (PineMap.try_emplace_with c k2 f).2.addresses k1 = some a1 ∧
    lookupA (PineMap.try_emplace_with c k2 f).2.store a1 = lookupA c.store a1 := by
  obtain ⟨hk, ha, hlt, hhlt, hdisj⟩ := hwf
  rw [PineMap.try_emplace_with]
  by_cases hc : containsA c.addresses k2 = true
  · rw [if_pos hc]
    exact ⟨h1, rfl⟩
  · rw [if_neg hc]
    cases hh : c.holes with
    | cons hole rest =>
      have hhole : hole ∉ c.addresses.map Prod.snd :=
        hdisj hole (hh ▸ List.mem_cons_self hole rest)
      have hna : hole ≠ a1 := fun h => hhole (h ▸ lookupA_mem_snd h1)
      cases hv : f k2 hole with
      | ok v =>
        simp only [hv]
        refine ⟨?_, ?_⟩
        · rw [lookupA_setA_ne c.addresses hole (Ne.symm hne)]
          exact h1
        · rw [lookupA_setA_ne c.store v hna]
      | error e =>
        simp only [hv]
        exact ⟨h1, trivial⟩
    | nil =>
      have hna : c.nextAddr ≠ a1 :=
        fun h => absurd (h ▸ hlt a1 (lookupA_mem_snd h1)) (lt_irrefl _)
      cases hv : f k2 c.nextAddr with
      | ok v =>
        simp only [hv]
        refine ⟨?_, ?_⟩
        · rw [lookupA_setA_ne c.addresses c.nextAddr (Ne.symm hne)]
          exact h1
        · rw [lookupA_setA_ne c.store v hna]
      | error e =>
        simp only [hv]
        exact ⟨h1, trivial⟩

/-- Frame property of the homogeneous removals: removing a different key
leaves a live entry's index pointer and stored value untouched. -/
theorem pine_remove_frame {c : Cambium K V} {k1 : K} {a1 : Nat} (k2 : K)
    (vp : Nat → Option P) (hne : k1 ≠ k2) (hwf : CambiumWF c)
    (h1 : lookupA c.addresses k1 = some a1) :
    (lookupA (PineMap.remove_key c k2 vp).2.addresses k1 = some a1 ∧
     lookupA (PineMap.remove_key c k2 vp).2.store a1 = lookupA c.store a1) ∧
    (lookupA (PineMap.remove_pair c k2).2.addresses k1 = some a1 ∧
     lookupA (PineMap.remove_pair c k2).2.store a1 = lookupA c.store a1) := by
  obtain ⟨hk, ha, hlt, hhlt, hdisj⟩ := hwf
  cases h2 : lookupA c.addresses k2 with
  | none =>
    simp only [PineMap.remove_key, PineMap.remove_pair, h2]
    exact ⟨⟨h1, trivial⟩, h1, trivial⟩
  | some a2 =>
    have hane : a2 ≠ a1 := snd_ne_of_lookupA_ne ha h2 h1 (Ne.symm hne)
    simp only [PineMap.remove_key, PineMap.remove_pair, h2]
    refine ⟨⟨?_, ?_⟩, ?_, ?_⟩
    · rw [lookupA_eraseA_ne c.addresses (Ne.symm hne)]
      exact h1
    · rw [lookupA_eraseA_ne c.store hane]
    · rw [lookupA_eraseA_ne c.addresses (Ne.symm hne)]
      exact h1
    · rw [lookupA_eraseA_ne c.store hane]

/-- Frame property of the heterogeneous emplace. -/
theorem pressed_emplace_frame {p : PressedCambium K V} {k1 : K} {b1 : Nat} (k2 : K)
    (f : K → Nat → Except E V) (hne : k1 ≠ k2) (hwf : PressedWF p)
    (h1 : lookupA p.addresses k1 = some b1) :
    lookupA (PressedPineMap.try_emplace_with p k2 f).2.addresses k1 = some b1 ∧
    lookupA (PressedPineMap.try_emplace_with p k2 f).2.store b1 = lookupA p.store b1 := by
  obtain ⟨hk, ha, hlt⟩ := hwf
  rw [PressedPineMap.try_emplace_with]
  by_cases hc : containsA p.addresses k2 = true
  · rw [if_pos hc]
    exact ⟨h1, rfl⟩
  · rw [if_neg hc]
    have hna : p.nextAddr ≠ b1 :=
      fun h => absurd (h ▸ hlt b1 (lookupA_mem_snd h1)) (lt_irrefl _)
    cases hv : f k2 p.nextAddr with
    | ok v =>
      simp only [hv]
      refine ⟨?_, ?_⟩
      · rw [lookupA_setA_ne p.addresses p.nextAddr (Ne.symm hne)]
        exact h1
      · rw [lookupA_setA_ne p.store v hna]
    | error e =>
      simp only [hv]
      exact ⟨h1, trivial⟩

/-- Frame property of the heterogeneous removals. -/
theorem pressed_remove_frame {p : PressedCambium K V} {k1 : K} {b1 : Nat} (k2 : K)
    (vp : Nat → Option P) (hne : k1 ≠ k2) (hwf : PressedWF p)
    (h1 : lookupA p.addresses k1 = some b1) :
    (lookupA (PressedPineMap.remove_key p k2 vp).2.addresses k1 = some b1 ∧
     lookupA (PressedPineMap.remove_key p k2 vp).2.store b1 = lookupA p.store b1) ∧
    (lookupA (PressedPineMap.remove_pair p k2).2.addresses k1 = some b1 ∧
     lookupA (PressedPineMap.remove_pair p k2).2.store b1 = lookupA p.store b1) := by
  obtain ⟨hk, ha, hlt⟩ := hwf
  cases h2 : lookupA p.addresses k2 with
  | none =>
    simp only [PressedPineMap.remove_key, PressedPineMap.remove_pair, h2]
    exact ⟨⟨h1, trivial⟩, h1, trivial⟩
  | some a2 =>
    have hane : a2 ≠ b1 := snd_ne_of_lookupA_ne ha h2 h1 (Ne.symm hne)
    simp only [PressedPineMap.remove_key, PressedPineMap.remove_pair, h2]
    refine ⟨⟨?_, ?_⟩, ?_, ?_⟩
    · rw [lookupA_eraseA_ne p.addresses (Ne.symm hne)]
      exact h1
    · rw [lookupA_eraseA_ne p.store hane]
    · rw [lookupA_eraseA_ne p.addresses (Ne.symm hne)]
      exact h1
    · rw [lookupA_eraseA_ne p.store hane]

end FrameLemmas

section PressedOps

variable {K V E : Type} [DecidableEq K]

/-- Every single `PressedPineMap` operation preserves `PAddrFree`: emplaces
allocate only at the bump frontier, removals only delete entries. -/
theorem applyPOp_addrFree {a : Nat} {q : PressedCambium K V}
    (h : PAddrFree a q) (op : POp K V E) : PAddrFree a (applyPOp q op) := by
  obtain ⟨hlt, hmem⟩ := h
  cases op with
  | emplace k f =>
    dsimp only [applyPOp]
    rw [PressedPineMap.try_emplace_with]
    by_cases hc : containsA q.addresses k = true
    · rw [if_pos hc]
      exact ⟨hlt, hmem⟩
    · rw [if_neg hc]
      cases hv : f k q.nextAddr with
      | ok v =>
        simp only [hv]
        refine ⟨Nat.lt_succ_of_lt hlt, fun e he => ?_⟩
        rw [setA] at he
        rcases List.mem_cons.mp he with he | he
        · rw [he]
          exact Nat.ne_of_gt hlt
        · exact hmem e (mem_of_mem_eraseA he)
      | error e2 =>
        simp only [hv]
        exact ⟨Nat.lt_succ_of_lt hlt, hmem⟩
  | removeKey k =>
    dsimp only [applyPOp]
    cases h2 : lookupA q.addresses k with
    | none =>
      simp only [PressedPineMap.remove_key, h2]
      exact ⟨hlt, hmem⟩
    | some b =>
      simp only [PressedPineMap.remove_key, h2]
      exact ⟨hlt, fun e he => hmem e (mem_of_mem_eraseA he)⟩
  | removePair k =>
    dsimp only [applyPOp]
    cases h2 : lookupA q.addresses k with
    | none =>
      simp only [PressedPineMap.remove_pair, h2]
      exact ⟨hlt, hmem⟩
    | some b =>
      simp only [PressedPineMap.remove_pair, h2]
      exact ⟨hlt, fun e he => hmem e (mem_of_mem_eraseA he)⟩

/-- `PAddrFree` is preserved by arbitrary operation sequences. -/
theorem runPOps_addrFree {a : Nat} :
    ∀ (ops : List (POp K V E)) (q : PressedCambium K V),
      PAddrFree a q → PAddrFree a (runPOps q ops)
  | [], _, h => h
  | op :: rest, q, h => runPOps_addrFree rest (applyPOp q op) (applyPOp_addrFree h op)

/-- No `PressedPineMap` operation decreases the bump frontier. -/
theorem applyPOp_nextAddr_le (q : PressedCambium K V) (op : POp K V E) :
    q.nextAddr ≤ (applyPOp q op).nextAddr := by
  cases op with
  | emplace k f =>
    dsimp only [applyPOp]
    rw [PressedPineMap.try_emplace_with]
    by_cases hc : containsA q.addresses k = true
    · rw [if_pos hc]
    · rw [if_neg hc]
      cases hv : f k q.nextAddr with
      | ok v =>
        simp only [hv]
        exact Nat.le_succ _
      | error e2 =>
        simp only [hv]
        exact Nat.le_succ _
  | removeKey k =>
    dsimp only [applyPOp]
    cases h2 : lookupA q.addresses k with
    | none =>
      simp only [PressedPineMap.remove_key, h2]
      exact le_refl _
    | some b =>
      simp only [PressedPineMap.remove_key, h2]
      exact le_refl _
  | removePair k =>
    dsimp only [applyPOp]
    cases h2 : lookupA q.addresses k with
    | none =>
      simp only [PressedPineMap.remove_pair, h2]
      exact le_refl _
    | some b =>
      simp only [PressedPineMap.remove_pair, h2]
      exact le_refl _

/-- The bump frontier is monotone across arbitrary operation sequences. -/
theorem runPOps_nextAddr_le :
    ∀ (ops : List (POp K V E)) (q : PressedCambium K V),
      q.nextAddr ≤ (runPOps q ops).nextAddr
  | [], _ => le_refl _
  | op :: rest, q =>
    le_trans (applyPOp_nextAddr_le q op) (runPOps_nextAddr_le rest _)

end PressedOps

section MutEquivalence

variable {K V E : Type} [DecidableEq K]

/-- The exclusive-handle emplace primitive computes exactly what the
shared-handle one does: in the source the two bodies differ only in lock
acquisition, which the sequential embedding erases. -/
theorem pine_emplace_mut_eq (c : Cambium K V) (key : K)
    (f : K → Nat → Except E V) :
    PineMap.try_emplace_with_mut c key f = PineMap.try_emplace_with c key f := rfl

/-- The exclusive-handle insert wrapper computes exactly what the
shared-handle one does. -/
theorem pine_insert_mut_eq (c : Cambium K V) (key : K) (g : K → Except E V) :
    PineMap.try_insert_with_mut c key g = PineMap.try_insert_with c key g := rfl

/-- The heterogeneous engine's exclusive-handle emplace primitive computes
exactly what its shared-handle one does. -/
theorem pressed_emplace_mut_eq (p : PressedCambium K V) (key : K)
    (f : K → Nat → Except E V) :
    PressedPineMap.try_emplace_with_mut p key f =
      PressedPineMap.try_emplace_with p key f := rfl

/-- State and result of an emplace whose factory fails: the error is passed
out, the index, store and hole list are unchanged, and only in the
fresh-allocation branch the bump frontier has advanced (the fresh slot is
neither reclaimed nor rolled back). -/
theorem pine_emplace_fail {c : Cambium K V} {key : K}
    {f : K → Nat → Except E V} {e : E}
    (habs : containsA c.addresses key = false)
    (hf : ∀ s, f key s = Except.error e) :
    PineMap.try_emplace_with c key f =
      (EmplaceResult.factoryError e,
        if c.holes = [] then { c with nextAddr := c.nextAddr + 1 } else c) := by
  have hcne : ¬containsA c.addresses key = true := by
    rw [habs]
    exact Bool.false_ne_true
  rw [PineMap.try_emplace_with, if_neg hcne]
  cases hh : c.holes with
  | nil =>
    simp only [hf]
    rw [if_pos trivial]
  | cons hole rest =>
    rw [if_neg (List.cons_ne_nil hole rest)]
    simp only [hf]
    rw [← hh]

end MutEquivalence

/-- C1 (address stability): for any map of either engine in a reachable
(well-formed) state, and any live entry `k1` at address `a1`/`b1` distinct
from the key `k2` of an insert/emplace attempt or a removal, the operation
leaves `k1`'s index pointer — and the value stored at that address —
unchanged, so every previously returned reference for `k1` stays valid. -/
theorem C1_address_stability {K V E P : Type} [DecidableEq K]
    (c : Cambium K V) (p : PressedCambium K V) (k1 k2 : K) (a1 b1 : Nat)
    (f : K → Nat → Except E V) (vp : Nat → Option P)
    (hne : k1 ≠ k2) (hwf : CambiumWF c) (hpwf : PressedWF p)
    (h1 : lookupA c.addresses k1 = some a1)
    (hp1 : lookupA p.addresses k1 = some b1) :
    (lookupA (PineMap.try_emplace_with c k2 f).2.addresses k1 = some a1 ∧
     lookupA (PineMap.try_emplace_with c k2 f).2.store a1 = lookupA c.store a1) ∧
    (lookupA (PineMap.remove_key c k2 vp).2.addresses k1 = some a1 ∧
     lookupA (PineMap.remove_key c k2 vp).2.store a1 = lookupA c.store a1) ∧
    (lookupA (PineMap.remove_pair c k2).2.addresses k1 = some a1 ∧
     lookupA (PineMap.remove_pair c k2).2.store a1 = lookupA c.store a1) ∧
    (lookupA (PressedPineMap.try_emplace_with p k2 f).2.addresses k1 = some b1 ∧
     lookupA (PressedPineMap.try_emplace_with p k2 f).2.store b1 = lookupA p.store b1) ∧
    (lookupA (PressedPineMap.remove_key p k2 vp).2.addresses k1 = some b1 ∧
     lookupA (PressedPineMap.remove_key p k2 vp).2.store b1 = lookupA p.store b1) ∧
    (lookupA (PressedPineMap.remove_pair p k2).2.addresses k1 = some b1 ∧
     lookupA (PressedPineMap.remove_pair p k2).2.store b1 = lookupA p.store b1) := by
  obtain ⟨hrk, hrp⟩ := pine_remove_frame k2 vp hne hwf h1
  obtain ⟨hprk, hprp⟩ := pressed_remove_frame k2 vp hne hpwf hp1
  exact ⟨pine_emplace_frame k2 f hne hwf h1, hrk, hrp,
    pressed_emplace_frame k2 f hne hpwf hp1, hprk, hprp⟩

/-- C1 witness: in the concrete two-entry map, emplacing through key 2 leaves
key 1's pointer at address 0. -/
theorem C1_address_stability_wit :
    lookupA (PineMap.try_emplace_with (E := Unit) wit_map 2
      fun _ _ => Except.ok 9).2.addresses 1 = some 0 :=
  (C1_address_stability wit_map wit_pressed 1 2 0 0 (fun _ _ => Except.ok 9)
    (fun _ => (none : Option Unit)) (by decide) (by decide) (by decide)
    (by decide) (by decide)).1.1

/-- C2 (KeyOccupied behavior): when an entry for the key already exists, every
insert/emplace variant of either engine, shared- or exclusive-handle, returns
the inner key-occupied error carrying the caller's key, and the map state is
returned unchanged; the result does not depend on the supplied factory or
value, which is therefore never invoked or consumed. -/
theorem C2_key_occupied {K V E : Type} [DecidableEq K]
    (c : Cambium K V) (p : PressedCambium K V) (key : K)
    (f : K → Nat → Except E V) (g : K → Except E V) (v : V)
    (hc : containsA c.addresses key = true)
    (hp : containsA p.addresses key = true) :
    PineMap.try_emplace_with c key f = (EmplaceResult.occupied key, c) ∧
    PineMap.try_emplace_with_mut c key f = (EmplaceResult.occupied key, c) ∧
    PineMap.try_insert_with c key g = (EmplaceResult.occupied key, c) ∧
    PineMap.try_insert_with_mut c key g = (EmplaceResult.occupied key, c) ∧
    PineMap.insert c key v = (EmplaceResult.occupied key, c) ∧
    PressedPineMap.try_emplace_with p key f = (EmplaceResult.occupied key, p) ∧
    PressedPineMap.try_emplace_with_mut p key f = (EmplaceResult.occupied key, p) := by
  refine ⟨?_, ?_, ?_, ?_, ?_, ?_, ?_⟩ <;>
    simp [PineMap.try_emplace_with, PineMap.try_emplace_with_mut,
      PineMap.try_insert_with, PineMap.try_insert_with_mut, PineMap.insert,
      PressedPineMap.try_emplace_with, PressedPineMap.try_emplace_with_mut,
      hc, hp]

/-- C2 witness: emplacing key 1 into the concrete map, where key 1 is live,
returns KeyOccupied with key 1 and the unchanged map. -/
theorem C2_key_occupied_wit :
    PineMap.try_emplace_with (E := Unit) wit_map 1 (fun _ _ => Except.ok 9) =
      (EmplaceResult.occupied 1, wit_map) :=
  (C2_key_occupied wit_map wit_pressed 1 (fun _ _ => Except.ok 9)
    (fun _ => Except.ok 9) 9 (by decide) (by decide)).1

/-- C4: evaluation of the embedded `PineMap.clear` at the failing input — a
map whose value type has no drop glue and whose two keys both panic on drop.
Two key-destructor panics happen, yet the no-drop branch the code takes never
aggregates them: the first escapes uncaught and the second aborts the
process, while the needs-drop branch on the very same input produces the
single compound panic carrying both payloads that the claim (and the
function's own doc comment, src/sync.rs:272-277) promises for every map. -/
theorem C4_clear_no_drop_divergence :
    key_panics (fun k => some k) bad_keys_map.addresses = [1, 2] ∧
    (PineMap.clear bad_keys_map false (fun k => some k) fun _ => none).2 =
      ClearResult.aborted ∧
    (PineMap.clear bad_keys_map true (fun k => some k) fun _ => none).2 =
      ClearResult.compound [1, 2] := by
  decide

/-- C5 (concrete scenario): on a fresh `PineMap`, inserting 1↦2, 2↦3, 3↦4 in
order succeeds at addresses 0, 1, 2; a second insert of 3↦4 fails with
KeyOccupied carrying key 3 and leaves the map unchanged; lookups yield 2, 3,
4; after removing key 2 its lookup is absent while keys 1 and 3 keep the same
values at the same addresses as before the removal. -/
theorem C5_concrete_scenario :
    (PineMap.insert (PineMap.new Nat Nat) 1 2).1 = EmplaceResult.success 0 ∧
    (PineMap.insert scenario1 2 3).1 = EmplaceResult.success 1 ∧
    (PineMap.insert scenario2 3 4).1 = EmplaceResult.success 2 ∧
    (PineMap.insert scenario3 3 4).1 = EmplaceResult.occupied 3 ∧
    (PineMap.insert scenario3 3 4).2 = scenario3 ∧
    (PineMap.get scenario3 1 = some 2 ∧ PineMap.get scenario3 2 = some 3 ∧
      PineMap.get scenario3 3 = some 4) ∧
    (PineMap.remove_key (P := Empty) scenario3 2 fun _ => none).1 =
      Except.ok (some 2) ∧
    PineMap.get scenario4 2 = none ∧
    (lookupA scenario3.addresses 1 = some 0 ∧
      lookupA scenario4.addresses 1 = some 0 ∧
      lookupA scenario3.addresses 3 = some 2 ∧
      lookupA scenario4.addresses 3 = some 2) ∧
    PineMap.get scenario4 1 = some 2 ∧ PineMap.get scenario4 3 = some 4 := by
  decide

/-- C9 (shared/exclusive path equivalence): for every map state, key and
factory, the exclusive-handle operations return the same result and the same
final state as the corresponding shared-handle operations — in the source the
bodies differ only in lock acquisition, which has no sequential effect. -/
theorem C9_shared_exclusive_equivalence {K V E : Type} [DecidableEq K]
    (c : Cambium K V) (p : PressedCambium K V) (key : K)
    (f : K → Nat → Except E V) (g : K → Except E V) :
    PineMap.try_emplace_with_mut c key f = PineMap.try_emplace_with c key f ∧
    PineMap.try_insert_with_mut c key g = PineMap.try_insert_with c key g ∧
    PressedPineMap.try_emplace_with_mut p key f =
      PressedPineMap.try_emplace_with p key f :=
  ⟨pine_emplace_mut_eq c key f, pine_insert_mut_eq c key g,
    pressed_emplace_mut_eq p key f⟩

/-- Successful construction after any state: with the key absent and a
factory that succeeds, the emplace returns success at some address and the
value is then visible through `get`. -/
theorem pine_emplace_ok {K V E : Type} [DecidableEq K] {c : Cambium K V}
    {key : K} {g : K → Nat → Except E V} {w : V}
    (habs : containsA c.addresses key = false)
    (hg : ∀ s, g key s = Except.ok w) :
    ∃ b, (PineMap.try_emplace_with c key g).1 = EmplaceResult.success b ∧
      PineMap.get (PineMap.try_emplace_with c key g).2 key = some w := by
  have hcne : ¬containsA c.addresses key = true := by
    rw [habs]
    exact Bool.false_ne_true
  cases hh : c.holes with
  | cons hole rest =>
    refine ⟨hole, ?_, ?_⟩
    · simp only [PineMap.try_emplace_with, if_neg hcne, hh, hg]
    · simp only [PineMap.get, PineMap.try_emplace_with, if_neg hcne, hh, hg]
      rw [lookupA_setA_self]
      exact lookupA_setA_self c.store hole w
  | nil =>
    refine ⟨c.nextAddr, ?_, ?_⟩
    · simp only [PineMap.try_emplace_with, if_neg hcne, hh, hg]
    · simp only [PineMap.get, PineMap.try_emplace_with, if_neg hcne, hh, hg]
      rw [lookupA_setA_self]
      exact lookupA_setA_self c.store c.nextAddr w

/-- C3 counterexample: on a fresh map (empty hole list) a failing factory for
key 1 leaves the hole list empty and the bump frontier advanced to 1 — the
reserved coordinate is neither returned to the hole list nor is the
just-grown allocation shrunk back — and a subsequent successful construction
for key 1 lands at address 1, not at address 0 where it lands when key 1 was
never attempted, so the two histories are not identical. -/
theorem C3_counterexample :
    (PineMap.try_insert_with (E := Unit) (PineMap.new Nat Nat) 1
      fun _ => Except.error ()).2.holes = [] ∧
    (PineMap.try_insert_with (E := Unit) (PineMap.new Nat Nat) 1
      fun _ => Except.error ()).2.nextAddr = 1 ∧
    (PineMap.try_insert_with (E := Unit)
      (PineMap.try_insert_with (E := Unit) (PineMap.new Nat Nat) 1
        fun _ => Except.error ()).2
      1 fun _ => Except.ok 5).1 = EmplaceResult.success 1 ∧
    (PineMap.try_insert_with (E := Unit) (PineMap.new Nat Nat) 1
      fun _ => Except.ok 5).1 = EmplaceResult.success 0 := by
  decide

/-- C3 (amended): if the value factory fails during `try_emplace_with` or
`try_insert_with` (or their exclusive twins), the outer error is returned and
no index entry is created — the index, store and hole list are unchanged and
a lookup of the key finds nothing; in the hole-reuse branch the reserved
coordinate is returned to the hole list, but in the fresh-allocation branch
the just-allocated slot is leaked: the bump frontier advances and the slot is
not added to the hole list (the just-grown block is not shrunk back); a later
successful construction for the same key nevertheless succeeds and becomes
visible through lookup, though possibly at a different address than if the
key had never been attempted. -/
theorem C3_construction_atomicity {K V E : Type} [DecidableEq K]
    (c : Cambium K V) (key : K) (f : K → Nat → Except E V) (e : E)
    (habs : containsA c.addresses key = false)
    (hf : ∀ s, f key s = Except.error e) :
    (PineMap.try_emplace_with c key f).1 = EmplaceResult.factoryError e ∧
    (PineMap.try_emplace_with c key f).2.addresses = c.addresses ∧
    (PineMap.try_emplace_with c key f).2.store = c.store ∧
    (PineMap.try_emplace_with c key f).2.holes = c.holes ∧
    PineMap.get (PineMap.try_emplace_with c key f).2 key = none ∧
    (c.holes = [] →
      (PineMap.try_emplace_with c key f).2.nextAddr = c.nextAddr + 1) ∧
    (∀ g : K → Except E V, g key = Except.error e →
      (PineMap.try_insert_with c key g).1 = EmplaceResult.factoryError e) ∧
    (∀ (g : K → Nat → Except E V) (w : V), (∀ s, g key s = Except.ok w) →
      ∃ b, (PineMap.try_emplace_with (PineMap.try_emplace_with c key f).2 key g).1 =
          EmplaceResult.success b ∧
        PineMap.get (PineMap.try_emplace_with
          (PineMap.try_emplace_with c key f).2 key g).2 key = some w) := by
  have hstate := pine_emplace_fail habs hf
  have haddr : (PineMap.try_emplace_with c key f).2.addresses = c.addresses := by
    rw [hstate]
    by_cases hh : c.holes = [] <;> simp [hh]
  have hnone := lookupA_eq_none_of_not_containsA habs
  refine ⟨?_, haddr, ?_, ?_, ?_, ?_, ?_, ?_⟩
  · rw [hstate]
  · rw [hstate]
    by_cases hh : c.holes = [] <;> simp [hh]
  · rw [hstate]
    by_cases hh : c.holes = [] <;> simp [hh]
  · rw [PineMap.get, haddr, hnone]
    rfl
  · intro hh
    rw [hstate]
    simp [hh]
  · intro g hg
    have hf2 : ∀ s, (fun (k : K) (_ : Nat) => g k) key s = Except.error e :=
      fun _ => hg
    rw [PineMap.try_insert_with, pine_emplace_fail habs hf2]
  · intro g w hg
    refine pine_emplace_ok ?_ hg
    rw [haddr]
    exact habs

/-- C3 witness: on the concrete one-hole map with key 2 absent, a failing
factory for key 2 returns the outer error. -/
theorem C3_construction_atomicity_wit :
    (PineMap.try_emplace_with (E := Unit) wit_hole_map 2
      fun _ _ => Except.error ()).1 = EmplaceResult.factoryError () :=
  (C3_construction_atomicity wit_hole_map 2 (fun _ _ => Except.error ()) ()
    (by decide) fun _ => rfl).1

/-- C6 (no reclamation in the heterogeneous engine): in a well-formed
`PressedPineMap`, after removing the entry `k1` at address `a`, no sequence
of further emplaces and removals ever maps any key to `a` again (the address
is never reused, since every allocation happens at the bump frontier, which
stays strictly above `a`); the frontier — the arena's used space — is
monotonically non-decreasing under every operation sequence; and `clear`
releases the whole arena in one step, emptying the index and resetting the
frontier. -/
theorem C6_no_reclamation {K V E P : Type} [DecidableEq K]
    (p : PressedCambium K V) (k1 : K) (a : Nat) (vp : Nat → Option P)
    (hwf : PressedWF p) (h1 : lookupA p.addresses k1 = some a) :
    (∀ ops : List (POp K V E),
      a < (runPOps (PressedPineMap.remove_key p k1 vp).2 ops).nextAddr ∧
      ∀ k b,
        lookupA (runPOps (PressedPineMap.remove_key p k1 vp).2 ops).addresses k =
          some b → b ≠ a) ∧
    (∀ (q : PressedCambium K V) (ops : List (POp K V E)),
      q.nextAddr ≤ (runPOps q ops).nextAddr) ∧
    (∀ kp : K → Option P,
      (PressedPineMap.clear p kp vp).1.addresses = [] ∧
      (PressedPineMap.clear p kp vp).1.nextAddr = 0) := by
  obtain ⟨hk, ha, hlt⟩ := hwf
  have hinit : PAddrFree a (PressedPineMap.remove_key p k1 vp).2 := by
    refine ⟨?_, ?_⟩ <;> simp only [PressedPineMap.remove_key, h1]
    · exact hlt a (lookupA_mem_snd h1)
    · intro e he hea
      have hmem : e ∈ p.addresses := mem_of_mem_eraseA he
      have hfst : e.1 ≠ k1 := fst_ne_of_mem_eraseA hk he
      have hek : e = (k1, a) :=
        List.inj_on_of_nodup_map ha hmem (lookupA_mem h1) (by simpa using hea)
      exact hfst (congrArg Prod.fst hek)
  refine ⟨fun ops => ?_, fun q ops => runPOps_nextAddr_le ops q,
    fun kp => ⟨rfl, rfl⟩⟩
  obtain ⟨hlt2, hmem2⟩ := runPOps_addrFree ops _ hinit
  exact ⟨hlt2, fun k b hb => hmem2 (k, b) (lookupA_mem hb)⟩

/-- C6 witness: removing key 1 (address 0) from the concrete pressed map and
running no further operations leaves the frontier above address 0. -/
theorem C6_no_reclamation_wit :
    0 < (runPOps (PressedPineMap.remove_key wit_pressed 1
      fun _ => (none : Option Unit)).2 ([] : List (POp Nat Nat Unit))).nextAddr :=
  ((C6_no_reclamation wit_pressed 1 0 (fun _ => (none : Option Unit))
    (by decide) (by decide)).1 []).1

/-- C7 (removal is safe from destructor failure): removing a present key
first removes it from the index and pushes the freed slot onto the hole
stack, and only then drops the value; so whatever the value's destructor
does, the key subsequently looks up to nothing, the slot is already marked
free, other keys are untouched, and a destructor panic propagates only as
this call's result. -/
theorem C7_remove_key_panic_safety {K V P : Type} [DecidableEq K]
    (c : Cambium K V) (key : K) (a : Nat) (vp : Nat → Option P)
    (hk : (c.addresses.map Prod.fst).Nodup)
    (h : lookupA c.addresses key = some a) :
    lookupA (PineMap.remove_key c key vp).2.addresses key = none ∧
    (PineMap.remove_key c key vp).2.holes = a :: c.holes ∧
    (PineMap.remove_key c key vp).2.addresses = eraseA c.addresses key ∧
    (PineMap.remove_key c key vp).2.store = eraseA c.store a ∧
    (∀ k2, k2 ≠ key →
      lookupA (PineMap.remove_key c key vp).2.addresses k2 =
        lookupA c.addresses k2) ∧
    (∀ q, vp a = some q → (PineMap.remove_key c key vp).1 = Except.error q) ∧
    (vp a = none → (PineMap.remove_key c key vp).1 = Except.ok (some key)) := by
  simp only [PineMap.remove_key, h]
  refine ⟨lookupA_eraseA_self hk, trivial, trivial, trivial,
    fun k2 hne => lookupA_eraseA_ne c.addresses (Ne.symm hne),
    fun q hq => by simp [hq], fun hq => by simp [hq]⟩

/-- C7 witness: removing key 1 from the concrete map pushes its address 0
onto the hole stack. -/
theorem C7_remove_key_panic_safety_wit :
    (PineMap.remove_key wit_map 1 fun _ => (none : Option Unit)).2.holes =
      0 :: wit_map.holes :=
  (C7_remove_key_panic_safety wit_map 1 0 (fun _ => (none : Option Unit))
    (by decide) (by decide)).2.1

/-- C8 (hole-first LIFO allocation): when the key is absent, an insertion
with a non-empty hole list reuses the most recently freed slot — the top of
the hole stack — popping it and allocating no fresh storage; only with an
empty hole list does it allocate at the bump frontier; and every removal
pushes the freed coordinate onto the top of the hole stack. -/
theorem C8_hole_first_lifo {K V E P : Type} [DecidableEq K]
    (c : Cambium K V) (key : K) (f : K → Nat → Except E V) (vp : Nat → Option P)
    (habs : containsA c.addresses key = false) :
    (∀ hole rest v, c.holes = hole :: rest → f key hole = Except.ok v →
      (PineMap.try_emplace_with c key f).1 = EmplaceResult.success hole ∧
      (PineMap.try_emplace_with c key f).2.holes = rest ∧
      lookupA (PineMap.try_emplace_with c key f).2.addresses key = some hole ∧
      (PineMap.try_emplace_with c key f).2.nextAddr = c.nextAddr) ∧
    (∀ v, c.holes = [] → f key c.nextAddr = Except.ok v →
      (PineMap.try_emplace_with c key f).1 = EmplaceResult.success c.nextAddr ∧
      (PineMap.try_emplace_with c key f).2.nextAddr = c.nextAddr + 1) ∧
    (∀ k2 a, lookupA c.addresses k2 = some a →
      (PineMap.remove_key c k2 vp).2.holes = a :: c.holes ∧
      (PineMap.remove_pair c k2).2.holes = a :: c.holes) := by
  have hcne : ¬containsA c.addresses key = true := by
    rw [habs]
    exact Bool.false_ne_true
  refine ⟨fun hole rest v hh hv => ?_, fun v hh hv => ?_, fun k2 a h2 => ?_⟩
  · simp only [PineMap.try_emplace_with, if_neg hcne, hh, hv]
    exact ⟨trivial, trivial, lookupA_setA_self c.addresses key hole, trivial⟩
  · simp only [PineMap.try_emplace_with, if_neg hcne, hh, hv]
    exact ⟨trivial, trivial⟩
  · simp only [PineMap.remove_key, PineMap.remove_pair, h2]
    exact ⟨trivial, trivial⟩

/-- C8 witness: inserting key 2 into the concrete one-hole map reuses the
freed slot 1 from the top of the hole stack. -/
theorem C8_hole_first_lifo_wit :
    (PineMap.try_emplace_with (E := Unit) wit_hole_map 2
      fun _ _ => Except.ok 9).1 = EmplaceResult.success 1 :=
  ((C8_hole_first_lifo wit_hole_map 2 (fun _ _ => Except.ok 9)
    (fun _ => (none : Option Unit)) (by decide)).1 1 [] 9 rfl rfl).1

/-- C10 (fresh-slot leak on factory failure): when the hole list is empty and
the factory fails, the freshly allocated slot is neither pushed onto the hole
list nor deallocated — the bump frontier stays advanced, so the slot's arena
space is consumed until clear or drop — and the next successful insertion
allocates new storage at the next frontier address rather than reusing the
leaked slot; the exclusive-handle variant behaves identically. -/
theorem C10_fresh_slot_leak {K V E : Type} [DecidableEq K]
    (c : Cambium K V) (key : K) (f : K → Nat → Except E V) (e : E)
    (habs : containsA c.addresses key = false)
    (hholes : c.holes = [])
    (hf : ∀ s, f key s = Except.error e) :
    PineMap.try_emplace_with c key f =
      (EmplaceResult.factoryError e, { c with nextAddr := c.nextAddr + 1 }) ∧
    PineMap.try_emplace_with_mut c key f =
      (EmplaceResult.factoryError e, { c with nextAddr := c.nextAddr + 1 }) ∧
    (PineMap.try_emplace_with c key f).2.holes = [] ∧
    (PineMap.try_emplace_with c key f).2.nextAddr = c.nextAddr + 1 ∧
    c.nextAddr + 1 ≠ c.nextAddr ∧
    (∀ (k2 : K) (g : K → Nat → Except E V) (w : V),
      containsA c.addresses k2 = false → (∀ s, g k2 s = Except.ok w) →
      (PineMap.try_emplace_with (PineMap.try_emplace_with c key f).2 k2 g).1 =
        EmplaceResult.success (c.nextAddr + 1)) := by
  have hstate := pine_emplace_fail habs hf
  rw [if_pos hholes] at hstate
  refine ⟨hstate, ?_, ?_, ?_, Nat.succ_ne_self c.nextAddr, ?_⟩
  · rw [pine_emplace_mut_eq]
    exact hstate
  · rw [hstate]
    exact hholes
  · rw [hstate]
  · intro k2 g w habs2 hg
    rw [hstate]
    have hcne2 : ¬containsA c.addresses k2 = true := by
      rw [habs2]
      exact Bool.false_ne_true
    simp only [PineMap.try_emplace_with, hholes, if_neg hcne2, hg]

/-- C10 witness: on the concrete no-hole map with key 3 absent, a failing
factory leaves the hole list empty while the frontier advanced. -/
theorem C10_fresh_slot_leak_wit :
    (PineMap.try_emplace_with (E := Unit) wit_map 3
      fun _ _ => Except.error ()).2.holes = [] :=
  (C10_fresh_slot_leak wit_map 3 (fun _ _ => Except.error ()) ()
    (by decide) rfl fun _ => rfl).2.2.1
